import Mathlib

/-!
Verification of the variational-optimization driver specified for the
quantum-ai-pennylane repository.  The repository's notebooks drive a
classical gradient-descent loop over a scalar objective (circuit
expectation value); the specification re-architects that loop as a
`VariationalOptimizer` component with `initialize`, `step`, `run` and
`best` operations, an error taxonomy, and an optimization trace.  The
optimizer implementation itself is not present in the repository sources
(the notebooks call a library optimizer), so the component is modelled
here from the specification; the notebook loops (`energy_track`,
`loss_history`) fix the loop shape: one objective evaluation per
iteration, one cost appended to the trace per iteration.

Real numbers of the source are modelled as exact rationals; IEEE-754
non-finite values (NaN, infinities) are modelled explicitly by `FVal`.
-/

namespace VariationalOptimizer

/-- Modelled from the spec: a scalar value returned by the objective.
The spec's error taxonomy distinguishes finite results from NaN and
infinities, so the model carries the non-finite cases explicitly. -/
inductive FVal where
  | finite (q : ℚ)
  | nan
  | posInf
  | negInf
deriving DecidableEq, Repr

/-- A value is finite exactly when it carries a rational. -/
def FVal.isFinite : FVal → Bool
  | .finite _ => true
  | _ => false

/-- The rational carried by a finite value (0 for non-finite ones). -/
def FVal.toRat : FVal → ℚ
  | .finite q => q
  | _ => 0

/-- Every element of a gradient list is finite. -/
def FVal.allFinite (l : List FVal) : Bool :=
  l.all FVal.isFinite

/-- Modelled from the spec: the ObjectiveResult returned by one
objective evaluation — a scalar cost paired with a gradient vector. -/
structure ObjectiveResult where
  cost : FVal
  grad : List FVal
deriving Repr

/-- Modelled from the spec: the handle state machine is
"not started → running → finished/errored"; an error transitions the
handle to errored, after which `step` fails with OptimizerErrored. -/
inductive Status where
  | ready
  | errored
deriving DecidableEq, Repr

/-- Modelled from the spec: the error taxonomy of section 7. -/
inductive OptError where
  | invalidArgument
  | invalidGradientShape
  | nonFiniteValue
  | optimizerErrored
deriving DecidableEq, Repr

/-- Modelled from the spec: an OptimizerHandle carries the current
ParameterVector, the step size fixed at initialization, and the
state-machine status. -/
structure OptimizerHandle where
  params : List ℚ
  stepSize : ℚ
  status : Status
deriving DecidableEq, Repr

/-- Modelled from the spec: the steepest-descent update rule
`parameters[i] ← parameters[i] − step_size × gradient[i]`, applied to
every coordinate against the same pre-update gradient. -/
def updateRule (stepSize : ℚ) (params grad : List ℚ) : List ℚ :=
  List.zipWith (fun p g => p - stepSize * g) params grad

/-- Result of one `step` call: the successor handle, the outcome
(cost observed before the update, or an error), and the number of
objective evaluations the call performed. -/
structure StepResult where
  handle : OptimizerHandle
  outcome : Except OptError ℚ
  evalCount : Nat

/-- Modelled from the spec: `initialize` validates its arguments and
returns a fresh ready handle carrying a copy of the parameters. -/
def initOptimizer (initialParameters : List ℚ) (stepSize : ℚ)
    (maxIterations : Nat) : Except OptError OptimizerHandle :=
  if initialParameters.isEmpty ∨ stepSize ≤ 0 ∨ maxIterations < 1 then
    .error .invalidArgument
  else
    .ok ⟨initialParameters, stepSize, .ready⟩

/-- Modelled from the spec: `step` evaluates the objective once at the
current parameters, fails with InvalidGradientShape on a
length-mismatched gradient and with NonFiniteValue on a NaN/infinite
cost or gradient component (leaving the parameters unchanged and
marking the handle errored), fails with OptimizerErrored on an already
errored handle without evaluating the objective, and otherwise applies
the steepest-descent update and returns the pre-update cost. -/
def step (h : OptimizerHandle) (objective : List ℚ → ObjectiveResult) :
    StepResult :=
  match h.status with
  | .errored => ⟨h, .error .optimizerErrored, 0⟩
  | .ready =>
    let r := objective h.params
    if r.grad.length ≠ h.params.length then
      ⟨{ h with status := .errored }, .error .invalidGradientShape, 1⟩
    else if ¬ (r.cost.isFinite && FVal.allFinite r.grad) = true then
      ⟨{ h with status := .errored }, .error .nonFiniteValue, 1⟩
    else
      ⟨{ h with params := updateRule h.stepSize h.params (r.grad.map FVal.toRat) },
        .ok r.cost.toRat, 1⟩

/-- The handle obtained after `n` successive `step` calls. -/
def handleIter (h : OptimizerHandle) (objective : List ℚ → ObjectiveResult) :
    Nat → OptimizerHandle
  | 0 => h
  | n + 1 => (step (handleIter h objective n) objective).handle

/-- The cost the objective reports at the start of iteration `i`
(iterations counted from 0). -/
def costAt (h : OptimizerHandle) (objective : List ℚ → ObjectiveResult)
    (i : Nat) : ℚ :=
  ((objective (handleIter h objective i).params).cost).toRat

/-- Modelled from the spec: `run` stops early once the absolute
difference of the last two recorded costs falls below the supplied
tolerance; with no tolerance it never stops early. -/
def convergedTrace (tol : Option ℚ) (trace : List ℚ) : Bool :=
  match tol with
  | none => false
  | some t =>
    match trace.reverse with
    | a :: b :: _ => |a - b| < t
    | _ => false

/-- Result of a `run`: final handle, the OptimizationTrace of recorded
costs, the number of objective evaluations performed, and the error that
stopped the run, if any. -/
structure RunResult where
  handle : OptimizerHandle
  trace : List ℚ
  evals : Nat
  err : Option OptError

/-- Modelled from the spec: the `run` loop.  Each iteration performs one
`step`; on success the cost is appended to the trace and the loop either
detects convergence or continues; on error the accumulated trace is
returned alongside the error. -/
def runAux (objective : List ℚ → ObjectiveResult) (tol : Option ℚ) :
    Nat → OptimizerHandle → List ℚ → Nat → RunResult
  | 0, h, trace, evals => ⟨h, trace, evals, none⟩
  | fuel + 1, h, trace, evals =>
    let s := step h objective
    match s.outcome with
    | .error e => ⟨s.handle, trace, evals + s.evalCount, some e⟩
    | .ok cost =>
      let tr := trace ++ [cost]
      if convergedTrace tol tr then
        ⟨s.handle, tr, evals + s.evalCount, none⟩
      else
        runAux objective tol fuel s.handle tr (evals + s.evalCount)

/-- Modelled from the spec: `run(handle, objective, max_iterations,
stopping_tolerance?)` repeatedly calls `step` up to `max_iterations`
times, starting from an empty trace. -/
def run (h : OptimizerHandle) (objective : List ℚ → ObjectiveResult)
    (maxIterations : Nat) (tol : Option ℚ) : RunResult :=
  runAux objective tol maxIterations h [] 0

/-- An objective is well behaved when every evaluation returns a
gradient of the query's length and only finite values. -/
def wellBehaved (objective : List ℚ → ObjectiveResult) : Prop :=
  ∀ p : List ℚ,
    (objective p).grad.length = p.length ∧
    (objective p).cost.isFinite = true ∧
    FVal.allFinite (objective p).grad = true

/-- Modelled from the spec: `best` returns the position and value of the
minimum recorded cost, ties broken by the earliest index. -/
def best : List ℚ → Option (Nat × ℚ)
  | [] => none
  | c :: rest =>
    match best rest with
    | none => some (0, c)
    | some (i, v) => if v < c then some (i + 1, v) else some (0, c)

/-- Modelled from the spec: the quadratic objective
`f(p) = Σ (p_i − target_i)²` of section 8. -/
def sqCost (target p : List ℚ) : ℚ :=
  (List.zipWith (fun pi ti => (pi - ti) ^ 2) p target).sum

/-- Modelled from the spec: the quadratic objective together with its
gradient `2 (p − target)`. -/
def quadObj (target : List ℚ) : List ℚ → ObjectiveResult :=
  fun p =>
    ⟨.finite (sqCost target p),
      List.zipWith (fun pi ti => .finite (2 * (pi - ti))) p target⟩

/-- The concrete handle used by several witnesses below. -/
def witnessHandle : OptimizerHandle :=
  ⟨[1, 2], 1/2, .ready⟩

/-- A concrete well-shaped objective: cost 0, gradient equal to the
query point itself. -/
def witnessObjective : List ℚ → ObjectiveResult :=
  fun p => ⟨.finite 0, p.map FVal.finite⟩

/-- A concrete objective for the early-stopping scenario: cost
max 0 (first parameter), gradient all ones.  Starting from parameter 4
with step size 1 the cost sequence is 4, 3, 2, 1, 0, 0, ... — constant
from the fifth iteration on. -/
def plateauObjective : List ℚ → ObjectiveResult :=
  fun p => ⟨.finite (max 0 p.headI), p.map (fun _ => FVal.finite 1)⟩

/-- The handle for the early-stopping scenario. -/
def plateauHandle : OptimizerHandle :=
  ⟨[4], 1, .ready⟩

end VariationalOptimizer

namespace StateLearning

/-- A complex amplitude of a state vector, with exact rational real and
imaginary parts standing in for the source's floating-point components. -/
structure QComplex where
  re : ℚ
  im : ℚ
deriving DecidableEq, Repr

/-- Componentwise difference, embedding `output_state - target_state`
from loss_fn in the quantum_circuit_state_learning notebook. -/
def QComplex.sub (a b : QComplex) : QComplex :=
  ⟨a.re - b.re, a.im - b.im⟩

/-- Complex conjugate, as taken of the first argument by `jnp.vdot`. -/
def QComplex.conj (a : QComplex) : QComplex :=
  ⟨a.re, -a.im⟩

/-- Complex multiplication. -/
def QComplex.mul (a b : QComplex) : QComplex :=
  ⟨a.re * b.re - a.im * b.im, a.re * b.im + a.im * b.re⟩

/-- Complex addition. -/
def QComplex.add (a b : QComplex) : QComplex :=
  ⟨a.re + b.re, a.im + b.im⟩

/-- Sum of a list of complex numbers. -/
def csum (l : List QComplex) : QComplex :=
  l.foldr QComplex.add ⟨0, 0⟩

/-- `jnp.vdot a b`: the sum of `conj (a i) * b i` over the components. -/
def vdot (a b : List QComplex) : QComplex :=
  csum (List.zipWith (fun x y => x.conj.mul y) a b)

/-- The loss_fn of src/unnamed/part_003 (quantum circuit state learning):
`diff = output_state - target_state; jnp.vdot(diff, diff).real`, with the
circuit output state already evaluated to `output`. -/
def lossFn (output targetState : List QComplex) : ℚ :=
  (vdot (List.zipWith QComplex.sub output targetState)
    (List.zipWith QComplex.sub output targetState)).re

end StateLearning

namespace VariationalOptimizer

theorem step_errored (h : OptimizerHandle) (objective : List ℚ → ObjectiveResult)
    (he : h.status = .errored) :
    step h objective = ⟨h, .error .optimizerErrored, 0⟩ := by
  simp [step, he]

theorem step_ok (h : OptimizerHandle) (objective : List ℚ → ObjectiveResult)
    (hready : h.status = .ready)
    (hlen : (objective h.params).grad.length = h.params.length)
    (hfin : ((objective h.params).cost.isFinite
        && FVal.allFinite (objective h.params).grad) = true) :
    step h objective =
      ⟨⟨updateRule h.stepSize h.params ((objective h.params).grad.map FVal.toRat),
        h.stepSize, .ready⟩, .ok (objective h.params).cost.toRat, 1⟩ := by
  cases h with
  | mk p s st =>
    cases st with
    | ready => simp_all [step]
    | errored => simp at hready

theorem updateRule_length (s : ℚ) (p g : List ℚ) (hg : g.length = p.length) :
    (updateRule s p g).length = p.length := by
  simp [updateRule, hg]

theorem handleIter_errored (h : OptimizerHandle) (objective : List ℚ → ObjectiveResult)
    (he : h.status = .errored) :
    ∀ n, handleIter h objective n = h := by
  intro n
  induction n with
  | zero => rfl
  | succ n ih => simp [handleIter, ih, step_errored _ _ he]

theorem handleIter_invariant (h : OptimizerHandle) (objective : List ℚ → ObjectiveResult)
    (hready : h.status = .ready) (hwb : wellBehaved objective) :
    ∀ n, (handleIter h objective n).status = .ready ∧
      (handleIter h objective n).stepSize = h.stepSize ∧
      (handleIter h objective n).params.length = h.params.length := by
  intro n
  induction n with
  | zero => exact ⟨hready, rfl, rfl⟩
  | succ n ih =>
    obtain ⟨hst, hsz, hln⟩ := ih
    obtain ⟨hg, hc, hf⟩ := hwb (handleIter h objective n).params
    have hfin : (((objective (handleIter h objective n).params).cost.isFinite
        && FVal.allFinite (objective (handleIter h objective n).params).grad) = true) := by
      rw [hc, hf]; rfl
    have hs := step_ok (handleIter h objective n) objective hst hg hfin
    refine ⟨?_, ?_, ?_⟩
    · simp [handleIter, hs]
    · simp [handleIter, hs, hsz]
    · simp only [handleIter, hs]
      rw [updateRule_length]
      · exact hln
      · simp [hg]

/-- Claim C1: for every step of the steepest-descent rule and every
coordinate i, the new value is `parameters[i] − step_size × gradient[i]`,
where the gradient is the one the objective reports at the pre-update
parameter vector, so no coordinate's update uses a partially updated
vector from the same step. -/
theorem C1_steepest_descent_simultaneous
    (h : OptimizerHandle) (objective : List ℚ → ObjectiveResult)
    (hready : h.status = .ready)
    (hlen : (objective h.params).grad.length = h.params.length)
    (hfin : ((objective h.params).cost.isFinite
        && FVal.allFinite (objective h.params).grad) = true)
    (i : Nat) (hi : i < h.params.length) :
    ∃ hi2 : i < (step h objective).handle.params.length,
      ∃ hig : i < ((objective h.params).grad.map FVal.toRat).length,
      (step h objective).handle.params.get ⟨i, hi2⟩ =
        h.params.get ⟨i, hi⟩ -
          h.stepSize * ((objective h.params).grad.map FVal.toRat).get ⟨i, hig⟩ := by
  have hs := step_ok h objective hready hlen hfin
  have hglen : ((objective h.params).grad.map FVal.toRat).length = h.params.length := by
    simp [hlen]
  have hi2 : i < (step h objective).handle.params.length := by
    rw [hs]
    simpa [updateRule, hglen] using hi
  have hig : i < ((objective h.params).grad.map FVal.toRat).length := by
    rw [hglen]; exact hi
  refine ⟨hi2, hig, ?_⟩
  simp only [List.get_eq_getElem]
  have : (step h objective).handle.params =
      updateRule h.stepSize h.params ((objective h.params).grad.map FVal.toRat) := by
    rw [hs]
  rw [List.getElem_of_eq this hi2]
  simp [updateRule, List.getElem_zipWith]

/-- Witness for C1 at a concrete handle and objective. -/
theorem C1_steepest_descent_simultaneous_witness :
    witnessHandle.status = .ready ∧
    (witnessObjective witnessHandle.params).grad.length = witnessHandle.params.length ∧
    ((witnessObjective witnessHandle.params).cost.isFinite
      && FVal.allFinite (witnessObjective witnessHandle.params).grad) = true ∧
    1 < witnessHandle.params.length ∧
    (∃ hi2 : 1 < (step witnessHandle witnessObjective).handle.params.length,
      ∃ hig : 1 < ((witnessObjective witnessHandle.params).grad.map FVal.toRat).length,
      (step witnessHandle witnessObjective).handle.params.get ⟨1, hi2⟩ =
        witnessHandle.params.get ⟨1, by decide⟩ -
          witnessHandle.stepSize *
            ((witnessObjective witnessHandle.params).grad.map FVal.toRat).get ⟨1, hig⟩) :=
  ⟨rfl, rfl, rfl, by decide,
    C1_steepest_descent_simultaneous witnessHandle witnessObjective
      rfl rfl rfl 1 (by decide)⟩

/-- Claim C4: step fails with InvalidGradientShape on a gradient whose
length differs from the parameter vector, and with NonFiniteValue when
the cost or a gradient component is non-finite; in either case the
parameter vector is unchanged and the handle is errored, every
subsequent step on the same handle fails with OptimizerErrored (leaving
the parameters unchanged), and a fresh initialize yields a ready handle. -/
theorem C4_error_handling
    (h : OptimizerHandle) (objBad objNan : List ℚ → ObjectiveResult)
    (hready : h.status = .ready)
    (hshape : (objBad h.params).grad.length ≠ h.params.length)
    (hnlen : (objNan h.params).grad.length = h.params.length)
    (hnfin : ((objNan h.params).cost.isFinite
        && FVal.allFinite (objNan h.params).grad) = false) :
    ((step h objBad).outcome = .error .invalidGradientShape ∧
      (step h objBad).handle.params = h.params ∧
      (step h objBad).handle.status = .errored) ∧
    ((step h objNan).outcome = .error .nonFiniteValue ∧
      (step h objNan).handle.params = h.params ∧
      (step h objNan).handle.status = .errored) ∧
    (∀ (objective : List ℚ → ObjectiveResult) (n : Nat),
      (step (handleIter (step h objNan).handle objective n) objective).outcome
          = .error .optimizerErrored ∧
      (handleIter (step h objNan).handle objective n).params = h.params) ∧
    (∀ (p : List ℚ) (s : ℚ) (m : Nat), p ≠ [] → 0 < s → 1 ≤ m →
      initOptimizer p s m = .ok ⟨p, s, .ready⟩) := by
  have hbad : step h objBad =
      ⟨{ h with status := .errored }, .error .invalidGradientShape, 1⟩ := by
    cases h with
    | mk p s st =>
      cases st with
      | ready => simp_all [step]
      | errored => simp at hready
  have hnan : step h objNan =
      ⟨{ h with status := .errored }, .error .nonFiniteValue, 1⟩ := by
    cases h with
    | mk p s st =>
      cases st with
      | ready => simp_all [step]
      | errored => simp at hready
  refine ⟨⟨?_, ?_, ?_⟩, ⟨?_, ?_, ?_⟩, ?_, ?_⟩
  · rw [hbad]
  · rw [hbad]
  · rw [hbad]
  · rw [hnan]
  · rw [hnan]
  · rw [hnan]
  · intro objective n
    have hst : (step h objNan).handle.status = .errored := by rw [hnan]
    have hcn := handleIter_errored (step h objNan).handle objective hst n
    rw [hcn, step_errored _ _ hst, hnan]
    exact ⟨rfl, rfl⟩
  · intro p s m hp hs hm
    have hcond : ¬ (p.isEmpty = true ∨ s ≤ 0 ∨ m < 1) := by
      push_neg
      refine ⟨?_, hs, by omega⟩
      simpa [List.isEmpty_iff] using hp
    simp only [initOptimizer, if_neg hcond]

/-- Witness for C4: a ready one-parameter handle, an objective returning
an empty gradient, and an objective returning a NaN cost. -/
theorem C4_error_handling_witness :
    (⟨[0], 1, .ready⟩ : OptimizerHandle).status = .ready ∧
    (((fun _ => ⟨.finite 0, []⟩ : List ℚ → ObjectiveResult))
        (⟨[0], 1, .ready⟩ : OptimizerHandle).params).grad.length ≠
      (⟨[0], 1, .ready⟩ : OptimizerHandle).params.length ∧
    (((fun p => ⟨.nan, p.map FVal.finite⟩ : List ℚ → ObjectiveResult))
        (⟨[0], 1, .ready⟩ : OptimizerHandle).params).grad.length =
      (⟨[0], 1, .ready⟩ : OptimizerHandle).params.length ∧
    ((((fun p => ⟨.nan, p.map FVal.finite⟩ : List ℚ → ObjectiveResult))
        (⟨[0], 1, .ready⟩ : OptimizerHandle).params).cost.isFinite
      && FVal.allFinite (((fun p => ⟨.nan, p.map FVal.finite⟩ : List ℚ → ObjectiveResult))
        (⟨[0], 1, .ready⟩ : OptimizerHandle).params).grad) = false ∧
    (((step ⟨[0], 1, .ready⟩ (fun _ => ⟨.finite 0, []⟩)).outcome
          = .error .invalidGradientShape ∧
        (step ⟨[0], 1, .ready⟩ (fun _ => ⟨.finite 0, []⟩)).handle.params
          = (⟨[0], 1, .ready⟩ : OptimizerHandle).params ∧
        (step ⟨[0], 1, .ready⟩ (fun _ => ⟨.finite 0, []⟩)).handle.status = .errored) ∧
      ((step ⟨[0], 1, .ready⟩ (fun p => ⟨.nan, p.map FVal.finite⟩)).outcome
          = .error .nonFiniteValue ∧
        (step ⟨[0], 1, .ready⟩ (fun p => ⟨.nan, p.map FVal.finite⟩)).handle.params
          = (⟨[0], 1, .ready⟩ : OptimizerHandle).params ∧
        (step ⟨[0], 1, .ready⟩ (fun p => ⟨.nan, p.map FVal.finite⟩)).handle.status
          = .errored) ∧
      (∀ (objective : List ℚ → ObjectiveResult) (n : Nat),
        (step (handleIter
            (step ⟨[0], 1, .ready⟩ (fun p => ⟨.nan, p.map FVal.finite⟩)).handle
            objective n) objective).outcome = .error .optimizerErrored ∧
        (handleIter
            (step ⟨[0], 1, .ready⟩ (fun p => ⟨.nan, p.map FVal.finite⟩)).handle
            objective n).params = (⟨[0], 1, .ready⟩ : OptimizerHandle).params) ∧
      (∀ (p : List ℚ) (s : ℚ) (m : Nat), p ≠ [] → 0 < s → 1 ≤ m →
        initOptimizer p s m = .ok ⟨p, s, .ready⟩)) :=
  ⟨rfl, by decide, rfl, rfl,
    C4_error_handling ⟨[0], 1, .ready⟩
      (fun _ => ⟨.finite 0, []⟩) (fun p => ⟨.nan, p.map FVal.finite⟩)
      rfl (by decide) rfl rfl⟩

theorem handleIter_shift (h : OptimizerHandle) (objective : List ℚ → ObjectiveResult) :
    ∀ n, handleIter (step h objective).handle objective n = handleIter h objective (n + 1) := by
  intro n
  induction n with
  | zero => rfl
  | succ n ih => simp [handleIter, ih]

theorem costAt_shift (h : OptimizerHandle) (objective : List ℚ → ObjectiveResult)
    (i : Nat) :
    costAt (step h objective).handle objective i = costAt h objective (i + 1) := by
  simp [costAt, handleIter_shift]

theorem step_ok_of_wellBehaved (h : OptimizerHandle)
    (objective : List ℚ → ObjectiveResult)
    (hready : h.status = .ready) (hwb : wellBehaved objective) :
    step h objective =
      ⟨⟨updateRule h.stepSize h.params ((objective h.params).grad.map FVal.toRat),
        h.stepSize, .ready⟩, .ok (objective h.params).cost.toRat, 1⟩ := by
  obtain ⟨hg, hc, hf⟩ := hwb h.params
  exact step_ok h objective hready hg (by rw [hc, hf]; rfl)

theorem runAux_step_ok (objective : List ℚ → ObjectiveResult) (tol : Option ℚ)
    (fuel : Nat) (h : OptimizerHandle) (trace : List ℚ) (evals : Nat) (cost : ℚ)
    (hout : (step h objective).outcome = .ok cost)
    (hev : (step h objective).evalCount = 1) :
    runAux objective tol (fuel + 1) h trace evals =
      if convergedTrace tol (trace ++ [cost]) then
        ⟨(step h objective).handle, trace ++ [cost], evals + 1, none⟩
      else
        runAux objective tol fuel (step h objective).handle (trace ++ [cost])
          (evals + 1) := by
  rw [runAux]
  simp only [hout, hev]

theorem runAux_none_eq (objective : List ℚ → ObjectiveResult)
    (hwb : wellBehaved objective) :
    ∀ (N : Nat) (h : OptimizerHandle), h.status = .ready →
      ∀ (trace : List ℚ) (evals : Nat),
        runAux objective none N h trace evals =
          ⟨handleIter h objective N,
            trace ++ (List.range N).map (costAt h objective),
            evals + N, none⟩ := by
  intro N
  induction N with
  | zero => intro h hready trace evals; simp [runAux, handleIter]
  | succ n ih =>
    intro h hready trace evals
    have hs := step_ok_of_wellBehaved h objective hready hwb
    have hout : (step h objective).outcome = .ok ((objective h.params).cost.toRat) := by
      rw [hs]
    have hev : (step h objective).evalCount = 1 := by rw [hs]
    have hready2 : (step h objective).handle.status = .ready := by rw [hs]
    rw [runAux_step_ok objective none n h trace evals _ hout hev]
    have hnc : convergedTrace none (trace ++ [(objective h.params).cost.toRat]) = false :=
      rfl
    rw [hnc]
    simp only [Bool.false_eq_true, if_false]
    rw [ih (step h objective).handle hready2
      (trace ++ [(objective h.params).cost.toRat]) (evals + 1)]
    simp only [RunResult.mk.injEq]
    refine ⟨?_, ?_, ?_, trivial⟩
    · rw [handleIter_shift]
    · have hmap : (List.range n).map (costAt (step h objective).handle objective) =
          (List.range n).map (fun i => costAt h objective (i + 1)) :=
        List.map_congr_left (fun i _ => costAt_shift h objective i)
      rw [hmap, List.append_assoc]
      have hc0 : (objective h.params).cost.toRat = costAt h objective 0 := rfl
      rw [hc0, List.range_succ_eq_map]
      simp [Function.comp_def]
    · omega

/-- Claim C2: with max_iterations = N, no early stopping expression and
no error, each step performs exactly one objective evaluation and
appends exactly one entry to the OptimizationTrace, and the trace length
after the run equals exactly N (with N objective evaluations in total). -/
theorem C2_trace_length
    (h : OptimizerHandle) (objective : List ℚ → ObjectiveResult) (N : Nat)
    (hready : h.status = .ready) (hwb : wellBehaved objective) :
    (run h objective N none).trace.length = N ∧
    (run h objective N none).evals = N ∧
    (run h objective N none).err = none ∧
    ∀ n : Nat, (run h objective (n + 1) none).trace =
      (run h objective n none).trace ++ [costAt h objective n] := by
  have hr : ∀ M, run h objective M none =
      ⟨handleIter h objective M, (List.range M).map (costAt h objective), M, none⟩ := by
    intro M
    rw [run, runAux_none_eq objective hwb M h hready [] 0]
    simp
  refine ⟨?_, ?_, ?_, ?_⟩
  · rw [hr]; simp
  · rw [hr]
  · rw [hr]
  · intro n
    rw [hr, hr]
    simp [List.range_succ]

/-- Witness for C2 at the concrete handle, objective and N = 7. -/
theorem C2_trace_length_witness :
    witnessHandle.status = .ready ∧ wellBehaved witnessObjective ∧
    ((run witnessHandle witnessObjective 7 none).trace.length = 7 ∧
      (run witnessHandle witnessObjective 7 none).evals = 7 ∧
      (run witnessHandle witnessObjective 7 none).err = none ∧
      ∀ n : Nat, (run witnessHandle witnessObjective (n + 1) none).trace =
        (run witnessHandle witnessObjective n none).trace ++
          [costAt witnessHandle witnessObjective n]) :=
  ⟨rfl,
    fun p => ⟨by simp [witnessObjective], rfl,
      by simp [witnessObjective, FVal.allFinite, List.all_eq_true, FVal.isFinite]⟩,
    C2_trace_length witnessHandle witnessObjective 7 rfl
      (fun p => ⟨by simp [witnessObjective], rfl,
        by simp [witnessObjective, FVal.allFinite, List.all_eq_true, FVal.isFinite]⟩)⟩

/-- Claim C3: a step call returns the objective's cost at the parameter
vector that was passed in (before the update is applied), and the trace
entry for iteration i is the cost at the start of iteration i. -/
theorem C3_cost_before_update
    (h : OptimizerHandle) (objective : List ℚ → ObjectiveResult) (N i : Nat)
    (hready : h.status = .ready) (hwb : wellBehaved objective) (hi : i < N) :
    (step h objective).outcome = .ok ((objective h.params).cost.toRat) ∧
    ∃ hi2 : i < (run h objective N none).trace.length,
      (run h objective N none).trace.get ⟨i, hi2⟩ =
        ((objective (handleIter h objective i).params).cost).toRat := by
  have hs := step_ok_of_wellBehaved h objective hready hwb
  have hr : run h objective N none =
      ⟨handleIter h objective N, (List.range N).map (costAt h objective), N, none⟩ := by
    rw [run, runAux_none_eq objective hwb N h hready [] 0]
    simp
  have hlen : (run h objective N none).trace.length = N := by rw [hr]; simp
  have hi2 : i < (run h objective N none).trace.length := by rw [hlen]; exact hi
  refine ⟨by rw [hs], hi2, ?_⟩
  simp only [List.get_eq_getElem]
  have htr : (run h objective N none).trace = (List.range N).map (costAt h objective) := by
    rw [hr]
  rw [List.getElem_of_eq htr hi2]
  simp [costAt]

/-- Witness for C3 at the concrete handle and objective, N = 7, i = 2. -/
theorem C3_cost_before_update_witness :
    witnessHandle.status = .ready ∧ wellBehaved witnessObjective ∧ 2 < 7 ∧
    ((step witnessHandle witnessObjective).outcome =
        .ok ((witnessObjective witnessHandle.params).cost.toRat) ∧
      ∃ hi2 : 2 < (run witnessHandle witnessObjective 7 none).trace.length,
        (run witnessHandle witnessObjective 7 none).trace.get ⟨2, hi2⟩ =
          ((witnessObjective
            (handleIter witnessHandle witnessObjective 2).params).cost).toRat) :=
  ⟨rfl,
    fun p => ⟨by simp [witnessObjective], rfl,
      by simp [witnessObjective, FVal.allFinite, List.all_eq_true, FVal.isFinite]⟩,
    by decide,
    C3_cost_before_update witnessHandle witnessObjective 7 2 rfl
      (fun p => ⟨by simp [witnessObjective], rfl,
        by simp [witnessObjective, FVal.allFinite, List.all_eq_true, FVal.isFinite]⟩)
      (by decide)⟩

/-- Claim C6: given a deterministic objective, two independent run calls
with identical initial parameters, step size and iteration count produce
identical traces and final parameters. -/
theorem C6_run_deterministic
    (h1 h2 : OptimizerHandle) (objective : List ℚ → ObjectiveResult)
    (N : Nat) (tol : Option ℚ)
    (hp : h1.params = h2.params) (hsz : h1.stepSize = h2.stepSize)
    (hst : h1.status = h2.status) :
    (run h1 objective N tol).trace = (run h2 objective N tol).trace ∧
    (run h1 objective N tol).handle.params =
      (run h2 objective N tol).handle.params := by
  have heq : h1 = h2 := by
    cases h1; cases h2; simp_all
  rw [heq]
  exact ⟨rfl, rfl⟩

/-- Witness for C6 with two separately constructed but equal handles. -/
theorem C6_run_deterministic_witness :
    (⟨[1, 2], 1/2, .ready⟩ : OptimizerHandle).params = witnessHandle.params ∧
    (⟨[1, 2], 1/2, .ready⟩ : OptimizerHandle).stepSize = witnessHandle.stepSize ∧
    (⟨[1, 2], 1/2, .ready⟩ : OptimizerHandle).status = witnessHandle.status ∧
    ((run ⟨[1, 2], 1/2, .ready⟩ witnessObjective 5 none).trace =
        (run witnessHandle witnessObjective 5 none).trace ∧
      (run ⟨[1, 2], 1/2, .ready⟩ witnessObjective 5 none).handle.params =
        (run witnessHandle witnessObjective 5 none).handle.params) :=
  ⟨rfl, rfl, rfl,
    C6_run_deterministic ⟨[1, 2], 1/2, .ready⟩ witnessHandle witnessObjective 5 none
      rfl rfl rfl⟩

theorem best_isSome (c : ℚ) (rest : List ℚ) : best (c :: rest) ≠ none := by
  rw [best]
  cases hb : best rest with
  | none => simp
  | some p =>
    cases p with
    | mk i v => by_cases hv : v < c <;> simp [hv]

/-- Claim C8: best returns the index and value of the minimum recorded
cost, ties broken by the earliest index; it is deterministic, and the
value at the returned index equals the minimum of all recorded values. -/
theorem C8_best_minimum (trace : List ℚ) (i : Nat) (v : ℚ)
    (hb : best trace = some (i, v)) :
    best trace = best trace ∧
    ∃ hi : i < trace.length,
      trace.get ⟨i, hi⟩ = v ∧
      (∀ j (hj : j < trace.length), v ≤ trace.get ⟨j, hj⟩) ∧
      (∀ j, j < i → ∀ hj : j < trace.length, v < trace.get ⟨j, hj⟩) := by
  refine ⟨rfl, ?_⟩
  induction trace generalizing i v with
  | nil => simp [best] at hb
  | cons c rest ih =>
    rw [best] at hb
    cases hrest : best rest with
    | none =>
      rw [hrest] at hb
      simp only [Option.some.injEq, Prod.mk.injEq] at hb
      obtain ⟨hi0, hv0⟩ := hb
      cases rest with
      | cons d ds => exact absurd hrest (best_isSome d ds)
      | nil =>
        subst hi0; subst hv0
        refine ⟨by simp, rfl, ?_, ?_⟩
        · intro j hj
          have hj0 : j = 0 := by simpa using hj
          subst hj0
          exact le_refl _
        · intro j hj; omega
    | some p =>
      cases p with
      | mk i0 v0 =>
        rw [hrest] at hb
        dsimp only at hb
        obtain ⟨hi0, hget0, hmin0, htie0⟩ := ih i0 v0 hrest
        by_cases hv : v0 < c
        · rw [if_pos hv] at hb
          simp only [Option.some.injEq, Prod.mk.injEq] at hb
          obtain ⟨hi1, hv1⟩ := hb
          subst hi1; subst hv1
          refine ⟨by simpa using Nat.succ_lt_succ hi0, hget0, ?_, ?_⟩
          · intro j hj
            cases j with
            | zero => exact le_of_lt hv
            | succ j => exact hmin0 j (by simpa using hj)
          · intro j hjlt hj
            cases j with
            | zero => exact hv
            | succ j => exact htie0 j (by omega) (by simpa using hj)
        · rw [if_neg hv] at hb
          simp only [Option.some.injEq, Prod.mk.injEq] at hb
          obtain ⟨hi1, hv1⟩ := hb
          subst hi1; subst hv1
          refine ⟨by simp, rfl, ?_, ?_⟩
          · intro j hj
            cases j with
            | zero => exact le_refl _
            | succ j =>
              exact le_trans (not_lt.mp hv) (hmin0 j (by simpa using hj))
          · intro j hjlt hj; omega

/-- Witness for C8 on the concrete trace [3, 1, 2, 1]: minimum 1 first
occurs at index 1. -/
theorem C8_best_minimum_witness :
    best [3, 1, 2, 1] = some (1, 1) ∧
    (best [3, 1, 2, 1] = best [3, 1, 2, 1] ∧
      ∃ hi : 1 < ([3, 1, 2, 1] : List ℚ).length,
        ([3, 1, 2, 1] : List ℚ).get ⟨1, hi⟩ = 1 ∧
        (∀ j (hj : j < ([3, 1, 2, 1] : List ℚ).length),
          1 ≤ ([3, 1, 2, 1] : List ℚ).get ⟨j, hj⟩) ∧
        (∀ j, j < 1 → ∀ hj : j < ([3, 1, 2, 1] : List ℚ).length,
          1 < ([3, 1, 2, 1] : List ℚ).get ⟨j, hj⟩)) :=
  ⟨by decide, C8_best_minimum [3, 1, 2, 1] 1 1 (by decide)⟩

theorem quadObj_grad_map (target p : List ℚ) :
    (quadObj target p).grad.map FVal.toRat =
      List.zipWith (fun pi ti => 2 * (pi - ti)) p target := by
  simp [quadObj, List.map_zipWith, FVal.toRat]

theorem allFinite_zipWith (f : ℚ → ℚ → ℚ) :
    ∀ (p t : List ℚ),
      FVal.allFinite (List.zipWith (fun a b => FVal.finite (f a b)) p t) = true := by
  intro p
  induction p with
  | nil => intro t; rfl
  | cons a as ih =>
    intro t
    cases t with
    | nil => rfl
    | cons b bs =>
      simp only [List.zipWith_cons_cons, FVal.allFinite, List.all_cons]
      simpa [FVal.isFinite, FVal.allFinite] using ih bs

theorem quadObj_wellBehaved_at (target p : List ℚ) (hlen : p.length = target.length) :
    (quadObj target p).grad.length = p.length ∧
    ((quadObj target p).cost.isFinite && FVal.allFinite (quadObj target p).grad) = true := by
  constructor
  · simp [quadObj, hlen]
  · have hall := allFinite_zipWith (fun pi ti => 2 * (pi - ti)) p target
    simp only [quadObj, FVal.isFinite, Bool.true_and]
    exact hall

theorem sqCost_cons (b : ℚ) (bs : List ℚ) (a : ℚ) (as : List ℚ) :
    sqCost (b :: bs) (a :: as) = (a - b) ^ 2 + sqCost bs as := by
  simp [sqCost]

theorem sqCost_nonneg : ∀ (t p : List ℚ), 0 ≤ sqCost t p := by
  intro t
  induction t with
  | nil =>
    intro p
    cases p <;> simp [sqCost]
  | cons b bs ih =>
    intro p
    cases p with
    | nil => simp [sqCost]
    | cons a as =>
      rw [sqCost_cons]
      have h1 : 0 ≤ (a - b) ^ 2 := sq_nonneg _
      have h2 := ih as
      linarith

theorem quad_update_sqCost (η : ℚ) :
    ∀ (p t : List ℚ), p.length = t.length →
      sqCost t (List.zipWith (fun pi gi => pi - η * gi) p
        (List.zipWith (fun pi ti => 2 * (pi - ti)) p t)) =
      (1 - 2 * η) ^ 2 * sqCost t p := by
  intro p
  induction p with
  | nil =>
    intro t hlen
    cases t with
    | nil => simp [sqCost]
    | cons b bs => simp at hlen
  | cons a as ih =>
    intro t hlen
    cases t with
    | nil => simp at hlen
    | cons b bs =>
      have hlen2 : as.length = bs.length := by simpa using hlen
      simp only [List.zipWith_cons_cons]
      rw [sqCost_cons, sqCost_cons, ih bs hlen2]
      ring

theorem zipWith_sq_nonneg :
    ∀ (p t : List ℚ), ∀ x ∈ List.zipWith (fun pi ti => (pi - ti) ^ 2) p t, 0 ≤ x := by
  intro p
  induction p with
  | nil => intro t x hx; simp at hx
  | cons a as ih =>
    intro t x hx
    cases t with
    | nil => simp at hx
    | cons b bs =>
      simp only [List.zipWith_cons_cons, List.mem_cons] at hx
      rcases hx with rfl | hx
      · positivity
      · exact ih bs x hx

theorem sq_term_le_sqCost (t p : List ℚ) (i : Nat) (hip : i < p.length)
    (hit : i < t.length) :
    (p.get ⟨i, hip⟩ - t.get ⟨i, hit⟩) ^ 2 ≤ sqCost t p := by
  have hiz : i < (List.zipWith (fun pi ti => (pi - ti) ^ 2) p t).length := by
    rw [List.length_zipWith]; omega
  have hmem := List.get_mem (List.zipWith (fun pi ti => (pi - ti) ^ 2) p t) i hiz
  have hval : (List.zipWith (fun pi ti => (pi - ti) ^ 2) p t).get ⟨i, hiz⟩ =
      (p.get ⟨i, hip⟩ - t.get ⟨i, hit⟩) ^ 2 := by
    simp [List.get_eq_getElem, List.getElem_zipWith]
  rw [sqCost, ← hval]
  exact List.single_le_sum (zipWith_sq_nonneg p t) _ hmem

theorem quad_iter (target : List ℚ) (h : OptimizerHandle)
    (hready : h.status = .ready) (hlen : h.params.length = target.length) :
    ∀ k, (handleIter h (quadObj target) k).status = .ready ∧
      (handleIter h (quadObj target) k).stepSize = h.stepSize ∧
      (handleIter h (quadObj target) k).params.length = target.length ∧
      sqCost target (handleIter h (quadObj target) k).params =
        ((1 - 2 * h.stepSize) ^ 2) ^ k * sqCost target h.params := by
  intro k
  induction k with
  | zero =>
    refine ⟨hready, rfl, hlen, ?_⟩
    simp [handleIter]
  | succ k ih =>
    obtain ⟨hst, hsz, hln, hco⟩ := ih
    set hk := handleIter h (quadObj target) k with hkdef
    obtain ⟨hg, hfin⟩ := quadObj_wellBehaved_at target hk.params hln
    have hs := step_ok hk (quadObj target) hst hg hfin
    have hparams : (step hk (quadObj target)).handle.params =
        List.zipWith (fun pi gi => pi - hk.stepSize * gi) hk.params
          (List.zipWith (fun pi ti => 2 * (pi - ti)) hk.params target) := by
      rw [hs]
      simp [updateRule, quadObj_grad_map]
    have hlen2 : (step hk (quadObj target)).handle.params.length = target.length := by
      rw [hparams]
      simp only [List.length_zipWith]
      omega
    refine ⟨by rw [handleIter, hs], by rw [handleIter, hs, hsz],
      by rw [handleIter]; exact hlen2, ?_⟩
    rw [handleIter, ← hkdef, hparams]
    rw [quad_update_sqCost hk.stepSize hk.params target hln]
    rw [hsz, hco]
    ring

/-- Claim C7: for the quadratic objective f(p) = Σ (p_i − target_i)²
with gradient 2 (p − target), repeated application of step with a
sufficiently small step size strictly decreases the cost while it is
positive, and for every ε > 0 there is an iteration count beyond which
the cost and every coordinate's squared distance to the target stay
below ε. -/
theorem C7_quadratic_convergence (target : List ℚ) (h : OptimizerHandle)
    (hready : h.status = .ready) (hlen : h.params.length = target.length)
    (hpos : 0 < h.stepSize) (hsmall : h.stepSize < 1) :
    (∀ k, 0 < sqCost target (handleIter h (quadObj target) k).params →
      sqCost target (handleIter h (quadObj target) (k + 1)).params <
        sqCost target (handleIter h (quadObj target) k).params) ∧
    (∀ ε : ℚ, 0 < ε → ∃ K : Nat, ∀ k, K ≤ k →
      sqCost target (handleIter h (quadObj target) k).params < ε ∧
      ∀ i (hip : i < (handleIter h (quadObj target) k).params.length)
        (hit : i < target.length),
        ((handleIter h (quadObj target) k).params.get ⟨i, hip⟩ -
          target.get ⟨i, hit⟩) ^ 2 < ε) := by
  have hr0 : (0 : ℚ) ≤ (1 - 2 * h.stepSize) ^ 2 := sq_nonneg _
  have hr1 : (1 - 2 * h.stepSize) ^ 2 < 1 := by nlinarith
  have hiter := quad_iter target h hready hlen
  constructor
  · intro k hk
    obtain ⟨_, _, _, hck⟩ := hiter k
    obtain ⟨_, _, _, hck1⟩ := hiter (k + 1)
    rw [hck1, hck, pow_succ]
    rw [hck] at hk
    calc ((1 - 2 * h.stepSize) ^ 2) ^ k * (1 - 2 * h.stepSize) ^ 2 *
          sqCost target h.params
        = (1 - 2 * h.stepSize) ^ 2 *
            (((1 - 2 * h.stepSize) ^ 2) ^ k * sqCost target h.params) := by ring
      _ < 1 * (((1 - 2 * h.stepSize) ^ 2) ^ k * sqCost target h.params) :=
          mul_lt_mul_of_pos_right hr1 hk
      _ = ((1 - 2 * h.stepSize) ^ 2) ^ k * sqCost target h.params := one_mul _
  · intro ε hε
    have hc0 : 0 ≤ sqCost target h.params := sqCost_nonneg target h.params
    rcases eq_or_lt_of_le hc0 with hzero | hcpos
    · refine ⟨0, fun k _ => ?_⟩
      obtain ⟨_, _, hlnk, hck⟩ := hiter k
      have hcost : sqCost target (handleIter h (quadObj target) k).params = 0 := by
        rw [hck, ← hzero, mul_zero]
      refine ⟨by rw [hcost]; exact hε, ?_⟩
      intro i hip hit
      have hle := sq_term_le_sqCost target (handleIter h (quadObj target) k).params
        i hip hit
      rw [hcost] at hle
      exact lt_of_le_of_lt hle hε
    · obtain ⟨n, hn⟩ := exists_pow_lt_of_lt_one (div_pos hε hcpos) hr1
      refine ⟨n, fun k hkn => ?_⟩
      obtain ⟨_, _, hlnk, hck⟩ := hiter k
      have hkle : ((1 - 2 * h.stepSize) ^ 2) ^ k ≤ ((1 - 2 * h.stepSize) ^ 2) ^ n :=
        pow_le_pow_of_le_one hr0 (le_of_lt hr1) hkn
      have hcost : sqCost target (handleIter h (quadObj target) k).params < ε := by
        rw [hck]
        calc ((1 - 2 * h.stepSize) ^ 2) ^ k * sqCost target h.params
            ≤ ((1 - 2 * h.stepSize) ^ 2) ^ n * sqCost target h.params :=
              mul_le_mul_of_nonneg_right hkle hc0
          _ < (ε / sqCost target h.params) * sqCost target h.params :=
              mul_lt_mul_of_pos_right hn hcpos
          _ = ε := div_mul_cancel₀ ε (ne_of_gt hcpos)
      refine ⟨hcost, ?_⟩
      intro i hip hit
      exact lt_of_le_of_lt
        (sq_term_le_sqCost target (handleIter h (quadObj target) k).params i hip hit)
        hcost

theorem convergedTrace_map_range (t : ℚ) (c : Nat → ℚ) (s : Nat) (hs : 1 ≤ s) :
    convergedTrace (some t) ((List.range (s + 1)).map c) =
      decide (|c s - c (s - 1)| < t) := by
  obtain ⟨m, rfl⟩ : ∃ m, s = m + 1 := ⟨s - 1, by omega⟩
  have hrev : ((List.range (m + 1 + 1)).map c).reverse =
      c (m + 1) :: c m :: ((List.range m).map c).reverse := by
    simp [List.range_succ]
  simp only [convergedTrace, hrev, Nat.add_sub_cancel]

theorem runAux_tol_eq (objective : List ℚ → ObjectiveResult)
    (hwb : wellBehaved objective)
    (h : OptimizerHandle) (hready : h.status = .ready)
    (t : ℚ) (k : Nat) (hk : 1 ≤ k)
    (hconv : |costAt h objective k - costAt h objective (k - 1)| < t)
    (hbef : ∀ j, j < k → 1 ≤ j →
      ¬ |costAt h objective j - costAt h objective (j - 1)| < t) :
    ∀ (fuel : Nat), ∀ (s : Nat), s ≤ k → k + 1 - s ≤ fuel → ∀ (evals : Nat),
      runAux objective (some t) fuel (handleIter h objective s)
          ((List.range s).map (costAt h objective)) evals =
        ⟨handleIter h objective (k + 1),
          (List.range (k + 1)).map (costAt h objective),
          evals + (k + 1 - s), none⟩ := by
  intro fuel
  induction fuel with
  | zero =>
    intro s hs hf evals
    exact absurd hf (by omega)
  | succ fuel ih =>
    intro s hs hf evals
    have hst : (handleIter h objective s).status = .ready :=
      (handleIter_invariant h objective hready hwb s).1
    have hout : (step (handleIter h objective s) objective).outcome =
        .ok (costAt h objective s) := by
      rw [step_ok_of_wellBehaved _ _ hst hwb]
      rfl
    have hev : (step (handleIter h objective s) objective).evalCount = 1 := by
      rw [step_ok_of_wellBehaved _ _ hst hwb]
    rw [runAux_step_ok objective (some t) fuel _ _ evals _ hout hev]
    have htr : (List.range s).map (costAt h objective) ++ [costAt h objective s] =
        (List.range (s + 1)).map (costAt h objective) := by
      rw [List.range_succ, List.map_append]; rfl
    rw [htr]
    have hstep : (step (handleIter h objective s) objective).handle =
        handleIter h objective (s + 1) := rfl
    by_cases hsk : s = k
    · subst hsk
      have hcv : convergedTrace (some t)
          ((List.range (s + 1)).map (costAt h objective)) = true := by
        rw [convergedTrace_map_range t _ s hk]
        exact decide_eq_true hconv
      rw [hcv, if_pos rfl]
      rw [hstep]
      have he : evals + 1 = evals + (s + 1 - s) := by omega
      rw [he]
    · have hslt : s < k := lt_of_le_of_ne hs hsk
      have hcv : convergedTrace (some t)
          ((List.range (s + 1)).map (costAt h objective)) = false := by
        rcases Nat.eq_zero_or_pos s with hs0 | hs1
        · subst hs0; rfl
        · rw [convergedTrace_map_range t _ s hs1]
          exact decide_eq_false (hbef s hslt hs1)
      rw [hcv]
      simp only [Bool.false_eq_true, if_false]
      rw [hstep]
      rw [ih (s + 1) (by omega) (by omega) (evals + 1)]
      have he : evals + 1 + (k + 1 - (s + 1)) = evals + (k + 1 - s) := by omega
      rw [he]

/-- Claim C5: with a stopping tolerance supplied, run terminates early
the first time the absolute difference between the last two recorded
costs falls below the tolerance, returning the trace up to and
including the terminating iteration; if the first such difference is
between iterations k and k+1 (0-indexed costs k−1 and k), the trace
has exactly k+1 entries regardless of how much larger max_iterations
is. -/
theorem C5_early_stopping
    (h : OptimizerHandle) (objective : List ℚ → ObjectiveResult)
    (hready : h.status = .ready) (hwb : wellBehaved objective)
    (t : ℚ) (k : Nat) (hk : 1 ≤ k)
    (hconv : |costAt h objective k - costAt h objective (k - 1)| < t)
    (hbef : ∀ j, j < k → 1 ≤ j →
      ¬ |costAt h objective j - costAt h objective (j - 1)| < t)
    (N : Nat) (hN : k + 1 ≤ N) :
    (run h objective N (some t)).trace.length = k + 1 ∧
    (run h objective N (some t)).trace =
      (List.range (k + 1)).map (costAt h objective) ∧
    (run h objective N (some t)).err = none := by
  have hr := runAux_tol_eq objective hwb h hready t k hk hconv hbef N 0
    (by omega) (by omega) 0
  have h0 : handleIter h objective 0 = h := rfl
  have hm0 : (List.range 0).map (costAt h objective) = [] := rfl
  rw [h0, hm0] at hr
  have hrun : run h objective N (some t) =
      ⟨handleIter h objective (k + 1),
        (List.range (k + 1)).map (costAt h objective),
        0 + (k + 1 - 0), none⟩ := hr
  refine ⟨?_, ?_, ?_⟩
  · rw [hrun]; simp
  · rw [hrun]
  · rw [hrun]

theorem plateau_params (j : Nat) :
    handleIter plateauHandle plateauObjective j = ⟨[4 - (j : ℚ)], 1, .ready⟩ := by
  induction j with
  | zero =>
    show plateauHandle = _
    rw [plateauHandle]
    norm_num
  | succ j ih =>
    rw [handleIter, ih]
    simp only [step, plateauObjective, updateRule, FVal.toRat, FVal.isFinite,
      FVal.allFinite]
    norm_num
    simp only [FVal.isFinite, FVal.toRat, OptimizerHandle.mk.injEq, List.cons.injEq,
      and_true, true_and]
    norm_num
    ring

theorem plateau_cost (j : Nat) :
    costAt plateauHandle plateauObjective j = max 0 (4 - (j : ℚ)) := by
  rw [costAt, plateau_params]
  simp [plateauObjective, FVal.toRat]

/-- Witness for C5: with tolerance 10^-8 and the plateau objective whose
cost sequence 4, 3, 2, 1, 0, 0, ... is constant after iteration 5, run
with max_iterations 100 stops with a trace of exactly 6 entries. -/
theorem C5_early_stopping_witness :
    plateauHandle.status = .ready ∧ wellBehaved plateauObjective ∧
    1 ≤ 5 ∧
    |costAt plateauHandle plateauObjective 5 -
      costAt plateauHandle plateauObjective (5 - 1)| < 1/100000000 ∧
    (∀ j, j < 5 → 1 ≤ j →
      ¬ |costAt plateauHandle plateauObjective j -
          costAt plateauHandle plateauObjective (j - 1)| < 1/100000000) ∧
    5 + 1 ≤ 100 ∧
    ((run plateauHandle plateauObjective 100 (some (1/100000000))).trace.length
        = 5 + 1 ∧
      (run plateauHandle plateauObjective 100 (some (1/100000000))).trace =
        (List.range (5 + 1)).map (costAt plateauHandle plateauObjective) ∧
      (run plateauHandle plateauObjective 100 (some (1/100000000))).err
        = none) :=
  ⟨rfl,
    fun p => ⟨by simp [plateauObjective], rfl,
      by simp [plateauObjective, FVal.allFinite, List.all_eq_true, FVal.isFinite]⟩,
    by decide,
    by simp only [plateau_cost]; norm_num [max_def],
    by
      intro j hj5 hj1
      interval_cases j <;> (simp only [plateau_cost]; norm_num [max_def]),
    by decide,
    C5_early_stopping plateauHandle plateauObjective rfl
      (fun p => ⟨by simp [plateauObjective], rfl,
        by simp [plateauObjective, FVal.allFinite, List.all_eq_true, FVal.isFinite]⟩)
      (1/100000000) 5 (by decide)
      (by simp only [plateau_cost]; norm_num [max_def])
      (by
        intro j hj5 hj1
        interval_cases j <;> (simp only [plateau_cost]; norm_num [max_def]))
      100 (by decide)⟩

/-- Witness for C7 at the spec's example: target [1, −1], initial
parameters [0, 0], step size 1/10. -/
theorem C7_quadratic_convergence_witness :
    (⟨[0, 0], 1/10, .ready⟩ : OptimizerHandle).status = .ready ∧
    (⟨[0, 0], 1/10, .ready⟩ : OptimizerHandle).params.length =
      ([1, -1] : List ℚ).length ∧
    0 < (⟨[0, 0], 1/10, .ready⟩ : OptimizerHandle).stepSize ∧
    (⟨[0, 0], 1/10, .ready⟩ : OptimizerHandle).stepSize < 1 ∧
    ((∀ k, 0 < sqCost [1, -1]
          (handleIter ⟨[0, 0], 1/10, .ready⟩ (quadObj [1, -1]) k).params →
        sqCost [1, -1]
            (handleIter ⟨[0, 0], 1/10, .ready⟩ (quadObj [1, -1]) (k + 1)).params <
          sqCost [1, -1]
            (handleIter ⟨[0, 0], 1/10, .ready⟩ (quadObj [1, -1]) k).params) ∧
      (∀ ε : ℚ, 0 < ε → ∃ K : Nat, ∀ k, K ≤ k →
        sqCost [1, -1]
            (handleIter ⟨[0, 0], 1/10, .ready⟩ (quadObj [1, -1]) k).params < ε ∧
        ∀ i (hip : i <
            (handleIter ⟨[0, 0], 1/10, .ready⟩ (quadObj [1, -1]) k).params.length)
          (hit : i < ([1, -1] : List ℚ).length),
          ((handleIter ⟨[0, 0], 1/10, .ready⟩ (quadObj [1, -1]) k).params.get
              ⟨i, hip⟩ - ([1, -1] : List ℚ).get ⟨i, hit⟩) ^ 2 < ε)) :=
  ⟨rfl, rfl, by norm_num, by norm_num,
    C7_quadratic_convergence [1, -1] ⟨[0, 0], 1/10, .ready⟩ rfl rfl
      (by norm_num) (by norm_num)⟩

end VariationalOptimizer

namespace StateLearning

theorem lossFn_nil : lossFn [] [] = 0 := rfl

theorem lossFn_cons (x y : QComplex) (xs ys : List QComplex) :
    lossFn (x :: xs) (y :: ys) =
      ((x.re - y.re) ^ 2 + (x.im - y.im) ^ 2) + lossFn xs ys := by
  simp only [lossFn, vdot, csum, List.zipWith_cons_cons, List.foldr_cons,
    QComplex.sub, QComplex.conj, QComplex.mul, QComplex.add]
  ring

theorem lossFn_nonneg_zero_iff :
    ∀ (a b : List QComplex), a.length = b.length →
      0 ≤ lossFn a b ∧ (lossFn a b = 0 ↔ a = b) := by
  intro a
  induction a with
  | nil =>
    intro b hb
    cases b with
    | nil => exact ⟨le_refl 0, by simp [lossFn_nil]⟩
    | cons y ys => simp at hb
  | cons x xs ih =>
    intro b hb
    cases b with
    | nil => simp at hb
    | cons y ys =>
      have hlen : xs.length = ys.length := by simpa using hb
      obtain ⟨hnn, hiff⟩ := ih ys hlen
      rw [lossFn_cons]
      have h1 : 0 ≤ (x.re - y.re) ^ 2 := sq_nonneg _
      have h2 : 0 ≤ (x.im - y.im) ^ 2 := sq_nonneg _
      constructor
      · linarith
      · constructor
        · intro h0
          have hre : (x.re - y.re) ^ 2 = 0 := by linarith
          have him : (x.im - y.im) ^ 2 = 0 := by linarith
          have htl : lossFn xs ys = 0 := by linarith
          have hre2 : x.re = y.re :=
            sub_eq_zero.mp ((pow_eq_zero_iff (by norm_num : (2 : ℕ) ≠ 0)).mp hre)
          have him2 : x.im = y.im :=
            sub_eq_zero.mp ((pow_eq_zero_iff (by norm_num : (2 : ℕ) ≠ 0)).mp him)
          have hx : x = y := by
            cases x; cases y; simp_all
          rw [hx, hiff.mp htl]
        · intro h
          injection h with hxy htl
          subst hxy
          rw [hiff.mpr htl]
          simp

/-- Claim C10: the objective of the JAX state-learning loop,
`loss_fn(params, target_state) = Re ⟨circuit(params) − target_state,
circuit(params) − target_state⟩`, is nonnegative for every params and
target_state, and is zero exactly when the circuit output state equals
the target state. -/
theorem C10_loss_nonneg_zero_iff (α : Type) (circuit : α → List QComplex)
    (params : α) (targetState : List QComplex)
    (hlen : (circuit params).length = targetState.length) :
    0 ≤ lossFn (circuit params) targetState ∧
    (lossFn (circuit params) targetState = 0 ↔ circuit params = targetState) :=
  lossFn_nonneg_zero_iff (circuit params) targetState hlen

/-- Witness for C10 on a concrete two-amplitude state. -/
theorem C10_loss_nonneg_zero_iff_witness :
    (((fun _ => [⟨1, 0⟩, ⟨0, 0⟩] : Unit → List QComplex)) ()).length =
      ([⟨1, 0⟩, ⟨0, 0⟩] : List QComplex).length ∧
    (0 ≤ lossFn (((fun _ => [⟨1, 0⟩, ⟨0, 0⟩] : Unit → List QComplex)) ())
        [⟨1, 0⟩, ⟨0, 0⟩] ∧
      (lossFn (((fun _ => [⟨1, 0⟩, ⟨0, 0⟩] : Unit → List QComplex)) ())
          [⟨1, 0⟩, ⟨0, 0⟩] = 0 ↔
        ((fun _ => [⟨1, 0⟩, ⟨0, 0⟩] : Unit → List QComplex)) () =
          [⟨1, 0⟩, ⟨0, 0⟩])) :=
  ⟨rfl, C10_loss_nonneg_zero_iff Unit (fun _ => [⟨1, 0⟩, ⟨0, 0⟩]) ()
    [⟨1, 0⟩, ⟨0, 0⟩] rfl⟩

end StateLearning
